import Mathlib

/-!
Verification of the order-book core (`orderbook` package): the sorted
price-level container (`levelMap`), the book (`OrderBook`), snapshot loading
(`ApplySnapshot`) and incremental diff application (`ApplyUpdate`).

Modelling choices:
* Go `float64` prices and quantities are modelled as `ℚ` (`Rat`): the code
  only parses decimal text and then compares, sorts and tests equality, all
  of which the exact rationals model faithfully.
* Go strings destined for `strconv.ParseFloat` are modelled by `FStr`: a
  string is either well-formed numeric text carrying its value, or malformed
  text carrying an opaque tag.  `ParseFloat` succeeds exactly on the former,
  mirroring the only observable behaviour of `strconv.ParseFloat` the code
  uses.
* Go's `map[float64]float64` is modelled as a function `ℚ → Option ℚ`
  (the code only writes, deletes and looks up single keys, never iterates).
* `sort.Search` is modelled by `goSearch`, the same binary-search loop as
  Go's implementation.
* `sort.Sort(sort.Reverse(...))` / `sort.Float64s` are modelled with
  `List.mergeSort` under the corresponding total order: on lists of
  rationals a sorted permutation is unique as a list, so any correct
  sorting algorithm produces exactly the slice Go's sort produces.
* A Go `panic` (negative-length `make`) is modelled by an `Option` result
  being `none`.
* Go's `error` results are modelled by `Option`: `none` is the nil error.
-/

/-- Model of a Go string that is about to be parsed as a float: either
well-formed numeric text with value `val`, or malformed text with tag `tag`. -/
inductive FStr where
  | num (val : ℚ)
  | bad (tag : ℕ)
deriving DecidableEq

/-- Models `strconv.ParseFloat(s, 64)`: succeeds exactly on well-formed text. -/
def ParseFloat : FStr → Except ℕ ℚ
  | .num v => .ok v
  | .bad t => .error t

/-- The Go `error` value held in a parse result: `nil` (`none`) on success. -/
def errOf : Except ℕ ℚ → Option ℕ
  | .ok _ => none
  | .error t => some t

/-- Models the Go map `map[float64]float64` by its lookup function. -/
abbrev QtyMap := ℚ → Option ℚ

/-- Models `m[price] = qty` on a Go map. -/
def mapSet (m : QtyMap) (price qty : ℚ) : QtyMap :=
  fun x => if x = price then some qty else m x

/-- Models `delete(m, price)` on a Go map. -/
def mapDelete (m : QtyMap) (price : ℚ) : QtyMap :=
  fun x => if x = price then none else m x

/-- The loop body of Go's `sort.Search`:
`for i < j { h := (i+j)/2; if !f(h) { i = h+1 } else { j = h } }; return i`. -/
def goSearchAux (f : ℕ → Bool) (i j : ℕ) : ℕ :=
  if _h : i < j then
    if f ((i + j) / 2) then goSearchAux f i ((i + j) / 2)
    else goSearchAux f ((i + j) / 2 + 1) j
  else i
termination_by j - i
decreasing_by
  all_goals omega

/-- Models `sort.Search(n, f)`. -/
def goSearch (n : ℕ) (f : ℕ → Bool) : ℕ := goSearchAux f 0 n

/-- Models the Go struct `levelMap`: a sorted price slice plus a
price-to-quantity map. Bids are sorted high-to-low, asks low-to-high. -/
structure LevelMap where
  isBid : Bool
  prices : List ℚ
  qtyAt : QtyMap

/-- Models `newLevelMap(isBid)`. -/
def newLevelMap (isBid : Bool) : LevelMap :=
  { isBid := isBid, prices := [], qtyAt := fun _ => none }

/-- Models `(*levelMap).insertPrice`: binary-search for the insertion
position (bids: first index with `prices[i] <= price`; asks: first index with
`prices[i] >= price`), then splice the price in at that position. -/
def LevelMap.insertPrice (lm : LevelMap) (price : ℚ) : LevelMap :=
  let n := lm.prices.length
  let insertPos :=
    if lm.isBid then goSearch n (fun i => decide (lm.prices.getD i 0 ≤ price))
    else goSearch n (fun i => decide (price ≤ lm.prices.getD i 0))
  { lm with prices := lm.prices.take insertPos ++ price :: lm.prices.drop insertPos }

/-- Models `(*levelMap).removePrice`: binary-search for the price with the
same predicate as insertion; remove it only if it was found there. -/
def LevelMap.removePrice (lm : LevelMap) (price : ℚ) : LevelMap :=
  let n := lm.prices.length
  let pos :=
    if lm.isBid then goSearch n (fun i => decide (lm.prices.getD i 0 ≤ price))
    else goSearch n (fun i => decide (price ≤ lm.prices.getD i 0))
  if pos < n ∧ lm.prices.getD pos 0 = price then
    { lm with prices := lm.prices.take pos ++ lm.prices.drop (pos + 1) }
  else lm

/-- Models `(*levelMap).set(price, qty)`: zero quantity removes the level
(when present); any non-zero quantity — positive or negative — is stored,
inserting the price into the sorted slice when it was absent. -/
def LevelMap.set (lm : LevelMap) (price qty : ℚ) : LevelMap :=
  let present := (lm.qtyAt price).isSome
  if qty = 0 then
    if present then
      ({ lm with qtyAt := mapDelete lm.qtyAt price } : LevelMap).removePrice price
    else lm
  else
    let lm' : LevelMap := { lm with qtyAt := mapSet lm.qtyAt price qty }
    if present then lm' else lm'.insertPrice price

/-- Models `(*levelMap).best()`: top price with its quantity, `none` if empty.
Reading a missing map key in Go yields the zero value, hence `getD 0`. -/
def LevelMap.best (lm : LevelMap) : Option (ℚ × ℚ) :=
  match lm.prices with
  | [] => none
  | p :: _ => some (p, (lm.qtyAt p).getD 0)

/-- Models the Go struct `OrderBook` (the lock is a concurrency artefact with
no sequential semantics and is not modelled). -/
structure OrderBook where
  lastID : ℤ
  bids : LevelMap
  asks : LevelMap

/-- Models `New()`: empty sides, `lastID` at its zero value. -/
def OrderBook.New : OrderBook :=
  { lastID := 0, bids := newLevelMap true, asks := newLevelMap false }

/-- Models `(*OrderBook).BestBid()`. -/
def OrderBook.BestBid (ob : OrderBook) : Option (ℚ × ℚ) := ob.bids.best

/-- Models `(*OrderBook).BestAsk()`. -/
def OrderBook.BestAsk (ob : OrderBook) : Option (ℚ × ℚ) := ob.asks.best

/-- Models `(*OrderBook).GetLastID()`. -/
def OrderBook.GetLastID (ob : OrderBook) : ℤ := ob.lastID

/-- Models the Go struct `Level`. -/
structure Level where
  price : ℚ
  quantity : ℚ
deriving DecidableEq

/-- Models `(*OrderBook).GetBids(maxLevels)`.  `count := min(len, maxLevels)`
is computed on Go `int`s; `make([]Level, count)` panics when `count < 0`,
modelled by `none`. -/
def OrderBook.GetBids (ob : OrderBook) (maxLevels : ℤ) : Option (List Level) :=
  let count : ℤ := min (ob.bids.prices.length : ℤ) maxLevels
  if count < 0 then none
  else some ((ob.bids.prices.take count.toNat).map
    (fun p => { price := p, quantity := (ob.bids.qtyAt p).getD 0 }))

/-- Models `(*OrderBook).GetAsks(maxLevels)`; see `OrderBook.GetBids`. -/
def OrderBook.GetAsks (ob : OrderBook) (maxLevels : ℤ) : Option (List Level) :=
  let count : ℤ := min (ob.asks.prices.length : ℤ) maxLevels
  if count < 0 then none
  else some ((ob.asks.prices.take count.toNat).map
    (fun p => { price := p, quantity := (ob.asks.qtyAt p).getD 0 }))

/-- Models the Go struct `SnapshotMsg`; each entry is the
(priceString, quantityString) pair `lvl[0], lvl[1]`. -/
structure SnapshotMsg where
  lastUpdateID : ℤ
  bids : List (FStr × FStr)
  asks : List (FStr × FStr)

/-- Models the Go struct `UpdateMsg`. -/
structure UpdateMsg where
  firstID : ℤ
  finalID : ℤ
  bids : List (FStr × FStr)
  asks : List (FStr × FStr)

/-- Result of one per-side snapshot loading loop in `ApplySnapshot`: either
the filled map plus the collected (unsorted) price list, or an abort carrying
the Go error value that was returned (`errOf` of the *price* parse — the nil
error when only the quantity was malformed) together with the map as filled
so far. -/
inductive SideLoad where
  | done (m : QtyMap) (collected : List ℚ)
  | aborted (err : Option ℕ) (m : QtyMap)

/-- Models one per-side loop of `ApplySnapshot`: parse both strings, on any
parse failure return `err1`; keep only entries with `qty > 0`. -/
def loadSide : List (FStr × FStr) → QtyMap → List ℚ → SideLoad
  | [], m, acc => .done m acc
  | lvl :: rest, m, acc =>
    match ParseFloat lvl.1, ParseFloat lvl.2 with
    | .ok price, .ok qty =>
      if 0 < qty then loadSide rest (mapSet m price qty) (acc ++ [price])
      else loadSide rest m acc
    | r1, _ => .aborted (errOf r1) m

/-- Models `(*OrderBook).ApplySnapshot`: fresh tables are installed first;
each side's loop fills the table's map and a local price list; the sorted
list is only assigned to the table after its loop finishes, so an abort
leaves that side's `prices` empty; `lastID` is set only on full success. -/
def OrderBook.ApplySnapshot (ob : OrderBook) (snap : SnapshotMsg) :
    Option ℕ × OrderBook :=
  match loadSide snap.bids (fun _ => none) [] with
  | .aborted e m =>
    (e, { ob with bids := { isBid := true, prices := [], qtyAt := m },
                  asks := newLevelMap false })
  | .done mB accB =>
    let bids' : LevelMap :=
      { isBid := true, prices := accB.mergeSort (fun a b => decide (b ≤ a)),
        qtyAt := mB }
    match loadSide snap.asks (fun _ => none) [] with
    | .aborted e m =>
      (e, { ob with bids := bids',
                    asks := { isBid := false, prices := [], qtyAt := m } })
    | .done mA accA =>
      let asks' : LevelMap :=
        { isBid := false, prices := accA.mergeSort (fun a b => decide (a ≤ b)),
          qtyAt := mA }
      (none, { lastID := snap.lastUpdateID, bids := bids', asks := asks' })

/-- Models the Go `error` results of `ApplyUpdate`: `ErrGap`, or a `strconv`
parse error. A nil error is `none` at the `Option GoErr` level. -/
inductive GoErr where
  | gap
  | parse (tag : ℕ)
deriving DecidableEq

/-- Result of the `parseLevels` closure in `ApplyUpdate` on one side: the
mutated table, or an abort carrying the returned `err1` value (the nil
error when only the quantity was malformed) plus the table as mutated so
far. -/
inductive SideApply where
  | done (lm : LevelMap)
  | aborted (err : Option ℕ) (lm : LevelMap)

/-- Models the `parseLevels` closure of `ApplyUpdate`: parse both strings,
on any failure return `err1`, otherwise `m.set(price, qty)` and continue. -/
def applyLevels : List (FStr × FStr) → LevelMap → SideApply
  | [], lm => .done lm
  | lvl :: rest, lm =>
    match ParseFloat lvl.1, ParseFloat lvl.2 with
    | .ok price, .ok qty => applyLevels rest (lm.set price qty)
    | r1, _ => .aborted (errOf r1) lm

/-- The table a per-side diff application leaves behind, aborted or not
(`parseLevels` mutates the table in place, so the caller keeps it either
way). -/
def SideApply.table : SideApply → LevelMap
  | .done lm => lm
  | .aborted _ lm => lm

/-- The Go `error` value `parseLevels` hands back to its caller: nil on a
completed loop, and `err1` — which is still nil when only the quantity was
malformed — on an abort. -/
def SideApply.goErr : SideApply → Option ℕ
  | .done _ => none
  | .aborted e _ => e

/-- Models `(*OrderBook).ApplyUpdate`: stale diffs are dropped silently,
gaps return `ErrGap`; otherwise the bids loop runs and its *returned error*
is checked (`if err := parseLevels(...); err != nil`): only a non-nil error
— malformed price — stops the call. An abort whose `err1` is nil (malformed
quantity, well-formed price) passes the check, so the asks loop still runs
and `ob.lastID = upd.FinalID` still executes. -/
def OrderBook.ApplyUpdate (ob : OrderBook) (upd : UpdateMsg) :
    Option GoErr × OrderBook :=
  if upd.finalID < ob.lastID + 1 then (none, ob)
  else if ob.lastID + 1 < upd.firstID ∨ upd.finalID < ob.lastID + 1 then
    (some .gap, ob)
  else
    let bres := applyLevels upd.bids ob.bids
    match bres.goErr with
    | some t => (some (.parse t), { ob with bids := bres.table })
    | none =>
      let ares := applyLevels upd.asks ob.asks
      match ares.goErr with
      | some t => (some (.parse t), { ob with bids := bres.table, asks := ares.table })
      | none => (none, { lastID := upd.finalID, bids := bres.table, asks := ares.table })

/-! ## Derived characterisations used in theorem statements -/

/-- True exactly when `strconv.ParseFloat` succeeds on the string. -/
def parsesB (s : FStr) : Bool :=
  match ParseFloat s with
  | .ok _ => true
  | .error _ => false

/-- Every price and quantity string of the message side parses. -/
def AllParse (l : List (FStr × FStr)) : Prop :=
  ∀ e ∈ l, parsesB e.1 = true ∧ parsesB e.2 = true

instance instDecidableAllParse (l : List (FStr × FStr)) : Decidable (AllParse l) :=
  List.decidableBAll _ l

/-- The numeric (price, quantity) pairs of the entries that parse. -/
def parsedEntries (l : List (FStr × FStr)) : List (ℚ × ℚ) :=
  l.filterMap (fun e =>
    match ParseFloat e.1, ParseFloat e.2 with
    | .ok p, .ok q => some (p, q)
    | _, _ => none)

/-- Apply `set` once per entry, in order (the diff-side application). -/
def setAll (lm : LevelMap) (l : List (ℚ × ℚ)) : LevelMap :=
  l.foldl (fun acc e => acc.set e.1 e.2) lm

/-- Prices of the entries that parse with strictly positive quantity (the
entries a snapshot load keeps). -/
def posPrices (l : List (FStr × FStr)) : List ℚ :=
  l.filterMap (fun e =>
    match ParseFloat e.1, ParseFloat e.2 with
    | .ok p, .ok q => if 0 < q then some p else none
    | _, _ => none)

/-- The snapshot per-side loop's effect on the quantity map: insert each
positive-quantity entry, in order. -/
def loadFold (l : List (ℚ × ℚ)) (m : QtyMap) : QtyMap :=
  l.foldl (fun acc e => if 0 < e.2 then mapSet acc e.1 e.2 else acc) m

/-- The quantity map a snapshot side holds after processing `l`. -/
def snapMap (l : List (ℚ × ℚ)) : QtyMap := loadFold l (fun _ => none)

/-- Best bid strictly below best ask whenever both sides are non-empty
(invariant I4 of the spec). -/
def notCrossedB (ob : OrderBook) : Bool :=
  match ob.BestBid, ob.BestAsk with
  | some b, some a => decide (b.1 < a.1)
  | _, _ => true

/-! ## Basic lemmas -/

theorem parsesB_iff_ok (s : FStr) : parsesB s = true ↔ ∃ v, ParseFloat s = .ok v := by
  cases s <;> simp [parsesB, ParseFloat]

theorem applyLevels_of_allParse (l : List (FStr × FStr)) (hall : AllParse l)
    (lm : LevelMap) : applyLevels l lm = .done (setAll lm (parsedEntries l)) := by
  induction l generalizing lm with
  | nil => simp [applyLevels, setAll, parsedEntries]
  | cons e rest ih =>
    obtain ⟨h1, h2⟩ := hall e (List.mem_cons_self e rest)
    obtain ⟨v1, hv1⟩ := (parsesB_iff_ok e.1).1 h1
    obtain ⟨v2, hv2⟩ := (parsesB_iff_ok e.2).1 h2
    have hrest : AllParse rest := fun x hx => hall x (List.mem_cons_of_mem e hx)
    simp [applyLevels, hv1, hv2, parsedEntries, setAll,
      ih hrest (lm.set v1 v2), List.filterMap_cons]

/-! ## Claim theorems: diff acceptance, staleness, gap, reads -/

/-- C1: for every book state and every diff all of whose price and quantity
strings parse, `ApplyUpdate` applies the diff's entries (each via `set` on
the corresponding side) and sets the last-applied sequence to `finalID`
exactly when `firstID ≤ lastID + 1 ≤ finalID`; when that condition fails the
book is returned unchanged and the sequence is not advanced. -/
theorem applyUpdate_acceptance_boundary (ob : OrderBook) (upd : UpdateMsg)
    (hb : AllParse upd.bids) (ha : AllParse upd.asks) :
    (upd.firstID ≤ ob.lastID + 1 ∧ ob.lastID + 1 ≤ upd.finalID →
      ob.ApplyUpdate upd = (none,
        { lastID := upd.finalID,
          bids := setAll ob.bids (parsedEntries upd.bids),
          asks := setAll ob.asks (parsedEntries upd.asks) })) ∧
    (¬(upd.firstID ≤ ob.lastID + 1 ∧ ob.lastID + 1 ≤ upd.finalID) →
      (ob.ApplyUpdate upd).2 = ob ∧ (ob.ApplyUpdate upd).2.lastID = ob.lastID) := by
  constructor
  · rintro ⟨h1, h2⟩
    unfold OrderBook.ApplyUpdate
    rw [if_neg (by omega), if_neg (by omega),
      applyLevels_of_allParse upd.bids hb ob.bids,
      applyLevels_of_allParse upd.asks ha ob.asks]
    rfl
  · intro h
    have hstate : (ob.ApplyUpdate upd).2 = ob := by
      unfold OrderBook.ApplyUpdate
      rcases lt_or_le upd.finalID (ob.lastID + 1) with hlt | hge
      · rw [if_pos hlt]
      · rw [if_neg (by omega), if_pos (by omega)]
    exact ⟨hstate, by rw [hstate]⟩

theorem applyUpdate_acceptance_boundary_witness :
    OrderBook.New.ApplyUpdate
        { firstID := 1, finalID := 1, bids := [(.num 1, .num 1)], asks := [] } =
      (none,
        { lastID := 1,
          bids := setAll OrderBook.New.bids
            (parsedEntries [((FStr.num 1), (FStr.num 1))]),
          asks := setAll OrderBook.New.asks (parsedEntries []) }) :=
  (applyUpdate_acceptance_boundary OrderBook.New
    { firstID := 1, finalID := 1, bids := [(.num 1, .num 1)], asks := [] }
    (by decide) (by decide)).1 (by constructor <;> decide)

/-- C2: a diff with `firstID > lastID + 1` and `finalID ≥ lastID + 1` is
reported as a gap (`ErrGap`) and mutates nothing: the whole book, both
tables and `lastID` included, is exactly as before the call. -/
theorem applyUpdate_gap_detected (ob : OrderBook) (upd : UpdateMsg)
    (h1 : ob.lastID + 1 < upd.firstID) (h2 : ob.lastID + 1 ≤ upd.finalID) :
    ob.ApplyUpdate upd = (some .gap, ob) := by
  unfold OrderBook.ApplyUpdate
  rw [if_neg (by omega), if_pos (Or.inl h1)]

theorem applyUpdate_gap_detected_witness :
    OrderBook.New.ApplyUpdate
        { firstID := 50, finalID := 60, bids := [(.num 1, .num 1)], asks := [] } =
      (some .gap, OrderBook.New) :=
  applyUpdate_gap_detected OrderBook.New
    { firstID := 50, finalID := 60, bids := [(.num 1, .num 1)], asks := [] }
    (by decide) (by decide)

/-- C3: a diff with `finalID < lastID + 1` is discarded silently: the call
returns the nil error and every observable — `BestBid`, `BestAsk`,
`GetBids`/`GetAsks` at any count, and `GetLastID` — is unchanged, whatever
the diff's entries are (they are never even parsed). -/
theorem applyUpdate_stale_noop (ob : OrderBook) (upd : UpdateMsg) (n : ℤ)
    (h : upd.finalID < ob.lastID + 1) :
    ob.ApplyUpdate upd = (none, ob) ∧
    (ob.ApplyUpdate upd).2.BestBid = ob.BestBid ∧
    (ob.ApplyUpdate upd).2.BestAsk = ob.BestAsk ∧
    (ob.ApplyUpdate upd).2.GetBids n = ob.GetBids n ∧
    (ob.ApplyUpdate upd).2.GetAsks n = ob.GetAsks n ∧
    (ob.ApplyUpdate upd).2.GetLastID = ob.GetLastID := by
  have hmain : ob.ApplyUpdate upd = (none, ob) := by
    unfold OrderBook.ApplyUpdate
    rw [if_pos h]
  rw [hmain]
  exact ⟨rfl, rfl, rfl, rfl, rfl, rfl⟩

theorem applyUpdate_stale_noop_witness :
    OrderBook.New.ApplyUpdate
        { firstID := 0, finalID := 0, bids := [(.bad 9, .bad 9)], asks := [] } =
      (none, OrderBook.New) :=
  (applyUpdate_stale_noop OrderBook.New
    { firstID := 0, finalID := 0, bids := [(.bad 9, .bad 9)], asks := [] }
    3 (by decide)).1

/-- C10: `GetBids`/`GetAsks` with a strictly negative `maxLevels` allocate a
negative-length slice and panic (modelled as `none`); for `maxLevels ≥ 0`
they return a list of length at most `maxLevels`. -/
theorem getLevels_negative_count_panics (ob : OrderBook) (n : ℤ) :
    (n < 0 → ob.GetBids n = none ∧ ob.GetAsks n = none) ∧
    (0 ≤ n → (∃ l, ob.GetBids n = some l ∧ (l.length : ℤ) ≤ n) ∧
      (∃ l, ob.GetAsks n = some l ∧ (l.length : ℤ) ≤ n)) := by
  constructor
  · intro hn
    constructor
    · unfold OrderBook.GetBids
      rw [if_pos (by omega)]
    · unfold OrderBook.GetAsks
      rw [if_pos (by omega)]
  · intro hn
    constructor
    · refine ⟨(ob.bids.prices.take (min ((ob.bids.prices.length) : ℤ) n).toNat).map
        (fun p => { price := p, quantity := (ob.bids.qtyAt p).getD 0 }), ?_, ?_⟩
      · unfold OrderBook.GetBids
        rw [if_neg (by omega)]
      · simp only [List.length_map, List.length_take]
        omega
    · refine ⟨(ob.asks.prices.take (min ((ob.asks.prices.length) : ℤ) n).toNat).map
        (fun p => { price := p, quantity := (ob.asks.qtyAt p).getD 0 }), ?_, ?_⟩
      · unfold OrderBook.GetAsks
        rw [if_neg (by omega)]
      · simp only [List.length_map, List.length_take]
        omega

theorem getLevels_negative_count_panics_witness :
    OrderBook.New.GetBids (-1) = none ∧ OrderBook.New.GetAsks (-1) = none :=
  (getLevels_negative_count_panics OrderBook.New (-1)).1 (by decide)

/-- C4 (code bug): an acceptable diff whose single bid entry has a
well-formed price but a malformed quantity makes `parseLevels` abort with
`err1` — the price's parse error, which is nil here — so the caller's
`err != nil` check passes: `ApplyUpdate` returns the nil error instead
of a parse error, *and* still executes `ob.lastID = upd.FinalID`, so the
sequence advances (here from 0 to 1) despite the malformed entry. Both
halves of the claim fail. -/
theorem applyUpdate_malformed_qty_returns_nil :
    (OrderBook.New.ApplyUpdate
        { firstID := 1, finalID := 1, bids := [(.num 1, .bad 7)], asks := [] }).1
      = none ∧
    (OrderBook.New.ApplyUpdate
        { firstID := 1, finalID := 1, bids := [(.num 1, .bad 7)], asks := [] }).2.lastID
      = 1 := by
  constructor <;> rfl

/-- C5 (code bug): a snapshot whose single bid entry has a well-formed price
but a malformed quantity makes `ApplySnapshot` abort (the book's sequence is
not set), yet the call returns the nil error rather than a parse-error
signal, again because `return err1` returns the price's nil parse error. -/
theorem applySnapshot_malformed_qty_returns_nil :
    (OrderBook.New.ApplySnapshot
        { lastUpdateID := 5, bids := [(.num 1, .bad 3)], asks := [] }).1
      = none ∧
    (OrderBook.New.ApplySnapshot
        { lastUpdateID := 5, bids := [(.num 1, .bad 3)], asks := [] }).2.lastID
      = 0 := by
  constructor <;> rfl

/-- C6 (counterexample): a snapshot carrying the same bid price twice — both
with positive quantity — is accepted, and afterwards `prices` holds the
duplicated price twice, so the bid side's ordered sequence is neither
strictly descending nor duplicate-free in a state reachable through `New`
and `ApplySnapshot`. -/
theorem snapshot_duplicate_price_breaks_sortedness :
    (OrderBook.New.ApplySnapshot
        { lastUpdateID := 1, bids := [(.num 1, .num 1), (.num 1, .num 2)],
          asks := [] }).2.bids.prices = [1, 1] ∧
    ¬ ((OrderBook.New.ApplySnapshot
        { lastUpdateID := 1, bids := [(.num 1, .num 1), (.num 1, .num 2)],
          asks := [] }).2.bids.prices).Pairwise (fun a b => b < a) ∧
    ¬ ((OrderBook.New.ApplySnapshot
        { lastUpdateID := 1, bids := [(.num 1, .num 1), (.num 1, .num 2)],
          asks := [] }).2.bids.prices).Nodup := by
  have hp : (OrderBook.New.ApplySnapshot
      { lastUpdateID := 1, bids := [(.num 1, .num 1), (.num 1, .num 2)],
        asks := [] }).2.bids.prices = [1, 1] := by
    show ([1, 1] : List ℚ).mergeSort (fun a b => decide (b ≤ a)) = [1, 1]
    exact List.mergeSort_of_sorted (by decide)
  refine ⟨hp, ?_, ?_⟩ <;> rw [hp] <;> decide

/-- C7 (counterexample): `ApplySnapshot` accepts a snapshot whose best bid
(100) lies above its best ask (50); the resulting state — reachable through
`New` and `ApplySnapshot` — is a crossed book: invariant I4 fails. -/
theorem crossed_snapshot_accepted :
    (OrderBook.New.ApplySnapshot
        { lastUpdateID := 1, bids := [(.num 100, .num 1)],
          asks := [(.num 50, .num 1)] }).1 = none ∧
    (OrderBook.New.ApplySnapshot
        { lastUpdateID := 1, bids := [(.num 100, .num 1)],
          asks := [(.num 50, .num 1)] }).2.BestBid = some (100, 1) ∧
    (OrderBook.New.ApplySnapshot
        { lastUpdateID := 1, bids := [(.num 100, .num 1)],
          asks := [(.num 50, .num 1)] }).2.BestAsk = some (50, 1) ∧
    notCrossedB (OrderBook.New.ApplySnapshot
        { lastUpdateID := 1, bids := [(.num 100, .num 1)],
          asks := [(.num 50, .num 1)] }).2 = false := by
  have hb : (OrderBook.New.ApplySnapshot
      { lastUpdateID := 1, bids := [(.num 100, .num 1)],
        asks := [(.num 50, .num 1)] }).2.bids.prices = [(100 : ℚ)] := by
    show ([(100 : ℚ)].mergeSort (fun a b => decide (b ≤ a))) = [(100 : ℚ)]
    exact List.mergeSort_singleton _
  have ha : (OrderBook.New.ApplySnapshot
      { lastUpdateID := 1, bids := [(.num 100, .num 1)],
        asks := [(.num 50, .num 1)] }).2.asks.prices = [(50 : ℚ)] := by
    show ([(50 : ℚ)].mergeSort (fun a b => decide (a ≤ b))) = [(50 : ℚ)]
    exact List.mergeSort_singleton _
  have hB : (OrderBook.New.ApplySnapshot
      { lastUpdateID := 1, bids := [(.num 100, .num 1)],
        asks := [(.num 50, .num 1)] }).2.BestBid = some (100, 1) := by
    unfold OrderBook.BestBid LevelMap.best
    rw [hb]
    rfl
  have hA : (OrderBook.New.ApplySnapshot
      { lastUpdateID := 1, bids := [(.num 100, .num 1)],
        asks := [(.num 50, .num 1)] }).2.BestAsk = some (50, 1) := by
    unfold OrderBook.BestAsk LevelMap.best
    rw [ha]
    rfl
  refine ⟨rfl, hB, hA, ?_⟩
  unfold notCrossedB
  rw [hB, hA]
  rfl

/-! ## Binary-search characterisation -/

theorem goSearchAux_spec (f : ℕ → Bool) (fuel : ℕ) :
    ∀ i j, j - i ≤ fuel → i ≤ j →
      i ≤ goSearchAux f i j ∧ goSearchAux f i j ≤ j ∧
      (i < goSearchAux f i j → f (goSearchAux f i j - 1) = false) ∧
      (goSearchAux f i j < j → f (goSearchAux f i j) = true) := by
  induction fuel with
  | zero =>
    intro i j hf hij
    have hji : i = j := by omega
    subst hji
    rw [goSearchAux.eq_def]
    simp
  | succ k ih =>
    intro i j hf hij
    rw [goSearchAux.eq_def]
    by_cases h : i < j
    · rw [dif_pos h]
      by_cases hm : f ((i + j) / 2)
      · rw [if_pos hm]
        obtain ⟨a1, a2, a3, a4⟩ := ih i ((i + j) / 2) (by omega) (by omega)
        refine ⟨a1, by omega, a3, ?_⟩
        intro _hlt
        rcases lt_or_eq_of_le a2 with h2 | h2
        · exact a4 h2
        · rw [h2]; exact hm
      · rw [if_neg hm]
        obtain ⟨a1, a2, a3, a4⟩ := ih ((i + j) / 2 + 1) j (by omega) (by omega)
        refine ⟨by omega, a2, ?_, a4⟩
        intro _hlt
        rcases lt_or_eq_of_le a1 with h1 | h1
        · exact a3 h1
        · rw [← h1]
          simpa using hm
    · rw [dif_neg h]
      exact ⟨le_refl _, hij, by omega, by omega⟩

theorem goSearch_spec (n : ℕ) (f : ℕ → Bool) :
    goSearch n f ≤ n ∧
    (0 < goSearch n f → f (goSearch n f - 1) = false) ∧
    (goSearch n f < n → f (goSearch n f) = true) := by
  obtain ⟨_, a2, a3, a4⟩ := goSearchAux_spec f n 0 n (by omega) (by omega)
  exact ⟨a2, a3, a4⟩

/-! ## Sorted insertion and removal -/

theorem pairwise_insert_at {R : ℚ → ℚ → Prop} {l : List ℚ} {a : ℚ} {r : ℕ}
    (hs : l.Pairwise R) (_hr : r ≤ l.length)
    (h1 : ∀ i (hi : i < l.length), i < r → R l[i] a)
    (h2 : ∀ i (hi : i < l.length), r ≤ i → R a l[i]) :
    (l.take r ++ a :: l.drop r).Pairwise R := by
  rw [List.pairwise_append]
  refine ⟨List.Pairwise.sublist (List.take_sublist r l) hs, ?_, ?_⟩
  · rw [List.pairwise_cons]
    constructor
    · intro b hb
      obtain ⟨k, hk, hbk⟩ := List.mem_iff_getElem.1 hb
      have hk' : r + k < l.length := by
        simp only [List.length_drop] at hk
        omega
      rw [List.getElem_drop l] at hbk
      rw [← hbk]
      exact h2 (r + k) hk' (by omega)
    · exact List.Pairwise.sublist (List.drop_sublist r l) hs
  · intro x hx y hy
    obtain ⟨i, hi, hxi⟩ := List.mem_iff_getElem.1 hx
    have hir : i < r := by
      simp only [List.length_take] at hi
      omega
    have hil : i < l.length := by
      simp only [List.length_take] at hi
      omega
    rw [List.getElem_take l] at hxi
    rcases List.mem_cons.1 hy with rfl | hy'
    · rw [← hxi]
      exact h1 i hil hir
    · obtain ⟨k, hk, hyk⟩ := List.mem_iff_getElem.1 hy'
      have hk' : r + k < l.length := by
        simp only [List.length_drop] at hk
        omega
      rw [List.getElem_drop l] at hyk
      rw [← hxi, ← hyk]
      exact List.pairwise_iff_getElem.1 hs i (r + k) hil hk' (by omega)

theorem mem_insert_at {l : List ℚ} {a : ℚ} {r : ℕ} (x : ℚ) :
    x ∈ l.take r ++ a :: l.drop r ↔ x = a ∨ x ∈ l := by
  rw [List.mem_append, List.mem_cons]
  constructor
  · rintro (h | rfl | h)
    · exact Or.inr ((List.take_sublist r l).mem h)
    · exact Or.inl rfl
    · exact Or.inr ((List.drop_sublist r l).mem h)
  · rintro (rfl | h)
    · exact Or.inr (Or.inl rfl)
    · rw [← List.take_append_drop r l] at h
      rcases List.mem_append.1 h with h' | h'
      · exact Or.inl h'
      · exact Or.inr (Or.inr h')

theorem insertPrice_prices_bid (lm : LevelMap) (p : ℚ) (hbid : lm.isBid = true) :
    (lm.insertPrice p).prices =
      lm.prices.take
          (goSearch lm.prices.length (fun i => decide (lm.prices.getD i 0 ≤ p))) ++
        p :: lm.prices.drop
          (goSearch lm.prices.length (fun i => decide (lm.prices.getD i 0 ≤ p))) := by
  simp [LevelMap.insertPrice, hbid]

theorem insertPrice_isBid (lm : LevelMap) (p : ℚ) :
    (lm.insertPrice p).isBid = lm.isBid := rfl

theorem insertPrice_qtyAt (lm : LevelMap) (p : ℚ) :
    (lm.insertPrice p).qtyAt = lm.qtyAt := rfl

theorem insertPrice_bid_spec (lm : LevelMap) (p : ℚ) (hbid : lm.isBid = true)
    (hs : lm.prices.Pairwise (fun a b => b < a)) (hab : p ∉ lm.prices) :
    (lm.insertPrice p).prices.Pairwise (fun a b => b < a) ∧
    (∀ x, x ∈ (lm.insertPrice p).prices ↔ x = p ∨ x ∈ lm.prices) := by
  rw [insertPrice_prices_bid lm p hbid]
  obtain ⟨hrn, hprev, hcur⟩ :=
    goSearch_spec lm.prices.length (fun i => decide (lm.prices.getD i 0 ≤ p))
  refine ⟨pairwise_insert_at hs hrn ?_ ?_, fun x => mem_insert_at x⟩
  · intro i hi hir
    have hr1 : goSearch lm.prices.length (fun i => decide (lm.prices.getD i 0 ≤ p)) - 1
        < lm.prices.length := by omega
    have hf := hprev (by omega)
    simp only [List.getD_eq_getElem lm.prices 0 hr1] at hf
    have hgt : p < lm.prices[goSearch lm.prices.length
        (fun i => decide (lm.prices.getD i 0 ≤ p)) - 1] := not_le.1 (of_decide_eq_false hf)
    rcases eq_or_lt_of_le (by omega : i ≤ goSearch lm.prices.length
        (fun i => decide (lm.prices.getD i 0 ≤ p)) - 1) with heq | hlt
    · subst heq
      exact hgt
    · exact lt_trans hgt (List.pairwise_iff_getElem.1 hs i _ hi hr1 hlt)
  · intro i hi hri
    have hrn' : goSearch lm.prices.length (fun i => decide (lm.prices.getD i 0 ≤ p))
        < lm.prices.length := by omega
    have hf := hcur hrn'
    simp only [List.getD_eq_getElem lm.prices 0 hrn'] at hf
    have hle : lm.prices[goSearch lm.prices.length
        (fun i => decide (lm.prices.getD i 0 ≤ p))] ≤ p := of_decide_eq_true hf
    have hlt : lm.prices[goSearch lm.prices.length
        (fun i => decide (lm.prices.getD i 0 ≤ p))] < p := by
      refine lt_of_le_of_ne hle ?_
      intro he
      exact hab (he ▸ List.getElem_mem hrn')
    rcases eq_or_lt_of_le hri with heq | hlt2
    · subst heq
      exact hlt
    · exact lt_trans (List.pairwise_iff_getElem.1 hs _ i hrn' hi hlt2) hlt

theorem removePrice_isBid (lm : LevelMap) (p : ℚ) :
    (lm.removePrice p).isBid = lm.isBid := by
  unfold LevelMap.removePrice
  split <;> (dsimp only; split <;> rfl)

theorem removePrice_qtyAt (lm : LevelMap) (p : ℚ) :
    (lm.removePrice p).qtyAt = lm.qtyAt := by
  unfold LevelMap.removePrice
  split <;> (dsimp only; split <;> rfl)

theorem erase_take_drop_sublist (l : List ℚ) (k : ℕ) :
    (l.take k ++ l.drop (k + 1)).Sublist l := by
  conv_rhs => rw [← List.take_append_drop k l]
  refine List.Sublist.append_left ?_ _
  rw [← List.drop_drop, List.drop_one]
  exact List.tail_sublist _

theorem removePrice_bid_spec (lm : LevelMap) (p : ℚ) (hbid : lm.isBid = true)
    (hs : lm.prices.Pairwise (fun a b => b < a)) (hmem : p ∈ lm.prices) :
    (lm.removePrice p).prices.Pairwise (fun a b => b < a) ∧
    (∀ x, x ∈ (lm.removePrice p).prices ↔ x ∈ lm.prices ∧ x ≠ p) := by
  obtain ⟨k, hkn, hk⟩ := List.mem_iff_getElem.1 hmem
  obtain ⟨hrn, hprev, hcur⟩ :=
    goSearch_spec lm.prices.length (fun i => decide (lm.prices.getD i 0 ≤ p))
  have hpair := List.pairwise_iff_getElem.1 hs
  have hrltn : goSearch lm.prices.length (fun i => decide (lm.prices.getD i 0 ≤ p))
      < lm.prices.length := by
    by_contra hge
    have hf := hprev (by omega)
    rw [show goSearch lm.prices.length (fun i => decide (lm.prices.getD i 0 ≤ p)) - 1
        = lm.prices.length - 1 by omega] at hf
    simp only [List.getD_eq_getElem lm.prices 0
      (by omega : lm.prices.length - 1 < lm.prices.length)] at hf
    have hgt : p < lm.prices[lm.prices.length - 1] := not_le.1 (of_decide_eq_false hf)
    rcases eq_or_lt_of_le (by omega : k ≤ lm.prices.length - 1) with heq | hlt
    · subst heq
      rw [hk] at hgt
      exact absurd hgt (lt_irrefl p)
    · have h2 := hpair k (lm.prices.length - 1) hkn (by omega) hlt
      rw [hk] at h2
      exact absurd (lt_trans hgt h2) (lt_irrefl p)
  have hfr := hcur hrltn
  simp only [List.getD_eq_getElem lm.prices 0 hrltn] at hfr
  have hler : lm.prices[goSearch lm.prices.length
      (fun i => decide (lm.prices.getD i 0 ≤ p))] ≤ p := of_decide_eq_true hfr
  have hreq : goSearch lm.prices.length (fun i => decide (lm.prices.getD i 0 ≤ p)) = k := by
    rcases Nat.lt_trichotomy
      (goSearch lm.prices.length (fun i => decide (lm.prices.getD i 0 ≤ p))) k with h' | h' | h'
    · exfalso
      have h2 := hpair _ k hrltn hkn h'
      rw [hk] at h2
      exact absurd hler (not_le.2 h2)
    · exact h'
    · exfalso
      have hf := hprev (by omega)
      have hr1n : goSearch lm.prices.length (fun i => decide (lm.prices.getD i 0 ≤ p)) - 1
          < lm.prices.length := by omega
      simp only [List.getD_eq_getElem lm.prices 0 hr1n] at hf
      have hgt : p < lm.prices[goSearch lm.prices.length
          (fun i => decide (lm.prices.getD i 0 ≤ p)) - 1] := not_le.1 (of_decide_eq_false hf)
      rcases eq_or_lt_of_le (by omega : k ≤ goSearch lm.prices.length
          (fun i => decide (lm.prices.getD i 0 ≤ p)) - 1) with heq | hlt
      · subst heq
        rw [hk] at hgt
        exact absurd hgt (lt_irrefl p)
      · have h2 := hpair k _ hkn hr1n hlt
        rw [hk] at h2
        exact absurd (lt_trans hgt h2) (lt_irrefl p)
  have hcond : goSearch lm.prices.length (fun i => decide (lm.prices.getD i 0 ≤ p))
      < lm.prices.length ∧
      lm.prices.getD (goSearch lm.prices.length
        (fun i => decide (lm.prices.getD i 0 ≤ p))) 0 = p := by
    refine ⟨hrltn, ?_⟩
    rw [List.getD_eq_getElem lm.prices 0 hrltn]
    simp only [hreq]
    exact hk
  have hprices : (lm.removePrice p).prices = lm.prices.take k ++ lm.prices.drop (k + 1) := by
    unfold LevelMap.removePrice
    simp only [hbid, if_true]
    rw [if_pos hcond]
    simp only [hreq]
  rw [hprices]
  constructor
  · exact List.Pairwise.sublist (erase_take_drop_sublist lm.prices k) hs
  · intro x
    constructor
    · intro hx
      refine ⟨(erase_take_drop_sublist lm.prices k).mem hx, ?_⟩
      rcases List.mem_append.1 hx with h' | h'
      · obtain ⟨i, hi, hxi⟩ := List.mem_iff_getElem.1 h'
        have hik : i < k := by
          simp only [List.length_take] at hi
          omega
        have hil : i < lm.prices.length := by omega
        rw [List.getElem_take lm.prices] at hxi
        intro hxp
        have h2 := hpair i k hil hkn hik
        rw [hk, hxi, hxp] at h2
        exact absurd h2 (lt_irrefl p)
      · obtain ⟨j, hj, hxj⟩ := List.mem_iff_getElem.1 h'
        have hjl : k + 1 + j < lm.prices.length := by
          simp only [List.length_drop] at hj
          omega
        rw [List.getElem_drop lm.prices] at hxj
        intro hxp
        have h2 := hpair k (k + 1 + j) hkn hjl (by omega)
        rw [hk, hxj, hxp] at h2
        exact absurd h2 (lt_irrefl p)
    · rintro ⟨hxl, hxp⟩
      obtain ⟨i, hi, hxi⟩ := List.mem_iff_getElem.1 hxl
      have hik : i ≠ k := by
        intro he
        subst he
        rw [hk] at hxi
        exact hxp hxi.symm
      rcases Nat.lt_or_ge i k with h' | h'
      · refine List.mem_append_left _ ?_
        rw [List.mem_iff_getElem]
        refine ⟨i, by simp only [List.length_take]; omega, ?_⟩
        rw [List.getElem_take lm.prices]
        exact hxi
      · have hik' : k + 1 ≤ i := by omega
        refine List.mem_append_right _ ?_
        rw [List.mem_iff_getElem]
        refine ⟨i - (k + 1), by simp only [List.length_drop]; omega, ?_⟩
        rw [List.getElem_drop lm.prices]
        simp only [show k + 1 + (i - (k + 1)) = i from by omega]
        exact hxi

theorem insertPrice_prices_ask (lm : LevelMap) (p : ℚ) (hask : lm.isBid = false) :
    (lm.insertPrice p).prices =
      lm.prices.take
          (goSearch lm.prices.length (fun i => decide (p ≤ lm.prices.getD i 0))) ++
        p :: lm.prices.drop
          (goSearch lm.prices.length (fun i => decide (p ≤ lm.prices.getD i 0))) := by
  simp [LevelMap.insertPrice, hask]

theorem insertPrice_ask_spec (lm : LevelMap) (p : ℚ) (hask : lm.isBid = false)
    (hs : lm.prices.Pairwise (fun a b => a < b)) (hab : p ∉ lm.prices) :
    (lm.insertPrice p).prices.Pairwise (fun a b => a < b) ∧
    (∀ x, x ∈ (lm.insertPrice p).prices ↔ x = p ∨ x ∈ lm.prices) := by
  rw [insertPrice_prices_ask lm p hask]
  obtain ⟨hrn, hprev, hcur⟩ :=
    goSearch_spec lm.prices.length (fun i => decide (p ≤ lm.prices.getD i 0))
  refine ⟨pairwise_insert_at hs hrn ?_ ?_, fun x => mem_insert_at x⟩
  · intro i hi hir
    have hr1 : goSearch lm.prices.length (fun i => decide (p ≤ lm.prices.getD i 0)) - 1
        < lm.prices.length := by omega
    have hf := hprev (by omega)
    simp only [List.getD_eq_getElem lm.prices 0 hr1] at hf
    have hgt : lm.prices[goSearch lm.prices.length
        (fun i => decide (p ≤ lm.prices.getD i 0)) - 1] < p := not_le.1 (of_decide_eq_false hf)
    rcases eq_or_lt_of_le (by omega : i ≤ goSearch lm.prices.length
        (fun i => decide (p ≤ lm.prices.getD i 0)) - 1) with heq | hlt
    · subst heq
      exact hgt
    · exact lt_trans (List.pairwise_iff_getElem.1 hs i _ hi hr1 hlt) hgt
  · intro i hi hri
    have hrn' : goSearch lm.prices.length (fun i => decide (p ≤ lm.prices.getD i 0))
        < lm.prices.length := by omega
    have hf := hcur hrn'
    simp only [List.getD_eq_getElem lm.prices 0 hrn'] at hf
    have hle : p ≤ lm.prices[goSearch lm.prices.length
        (fun i => decide (p ≤ lm.prices.getD i 0))] := of_decide_eq_true hf
    have hlt : p < lm.prices[goSearch lm.prices.length
        (fun i => decide (p ≤ lm.prices.getD i 0))] := by
      refine lt_of_le_of_ne hle ?_
      intro he
      refine hab ?_
      rw [he]
      exact List.getElem_mem hrn'
    rcases eq_or_lt_of_le hri with heq | hlt2
    · subst heq
      exact hlt
    · exact lt_trans hlt (List.pairwise_iff_getElem.1 hs _ i hrn' hi hlt2)

theorem removePrice_ask_spec (lm : LevelMap) (p : ℚ) (hask : lm.isBid = false)
    (hs : lm.prices.Pairwise (fun a b => a < b)) (hmem : p ∈ lm.prices) :
    (lm.removePrice p).prices.Pairwise (fun a b => a < b) ∧
    (∀ x, x ∈ (lm.removePrice p).prices ↔ x ∈ lm.prices ∧ x ≠ p) := by
  obtain ⟨k, hkn, hk⟩ := List.mem_iff_getElem.1 hmem
  obtain ⟨hrn, hprev, hcur⟩ :=
    goSearch_spec lm.prices.length (fun i => decide (p ≤ lm.prices.getD i 0))
  have hpair := List.pairwise_iff_getElem.1 hs
  have hrltn : goSearch lm.prices.length (fun i => decide (p ≤ lm.prices.getD i 0))
      < lm.prices.length := by
    by_contra hge
    have hf := hprev (by omega)
    rw [show goSearch lm.prices.length (fun i => decide (p ≤ lm.prices.getD i 0)) - 1
        = lm.prices.length - 1 by omega] at hf
    simp only [List.getD_eq_getElem lm.prices 0
      (by omega : lm.prices.length - 1 < lm.prices.length)] at hf
    have hgt : lm.prices[lm.prices.length - 1] < p := not_le.1 (of_decide_eq_false hf)
    rcases eq_or_lt_of_le (by omega : k ≤ lm.prices.length - 1) with heq | hlt
    · subst heq
      rw [hk] at hgt
      exact absurd hgt (lt_irrefl p)
    · have h2 := hpair k (lm.prices.length - 1) hkn (by omega) hlt
      rw [hk] at h2
      exact absurd (lt_trans h2 hgt) (lt_irrefl p)
  have hfr := hcur hrltn
  simp only [List.getD_eq_getElem lm.prices 0 hrltn] at hfr
  have hler : p ≤ lm.prices[goSearch lm.prices.length
      (fun i => decide (p ≤ lm.prices.getD i 0))] := of_decide_eq_true hfr
  have hreq : goSearch lm.prices.length (fun i => decide (p ≤ lm.prices.getD i 0)) = k := by
    rcases Nat.lt_trichotomy
      (goSearch lm.prices.length (fun i => decide (p ≤ lm.prices.getD i 0))) k with h' | h' | h'
    · exfalso
      have h2 := hpair _ k hrltn hkn h'
      rw [hk] at h2
      exact absurd hler (not_le.2 h2)
    · exact h'
    · exfalso
      have hf := hprev (by omega)
      have hr1n : goSearch lm.prices.length (fun i => decide (p ≤ lm.prices.getD i 0)) - 1
          < lm.prices.length := by omega
      simp only [List.getD_eq_getElem lm.prices 0 hr1n] at hf
      have hgt : lm.prices[goSearch lm.prices.length
          (fun i => decide (p ≤ lm.prices.getD i 0)) - 1] < p := not_le.1 (of_decide_eq_false hf)
      rcases eq_or_lt_of_le (by omega : k ≤ goSearch lm.prices.length
          (fun i => decide (p ≤ lm.prices.getD i 0)) - 1) with heq | hlt
      · subst heq
        rw [hk] at hgt
        exact absurd hgt (lt_irrefl p)
      · have h2 := hpair k _ hkn hr1n hlt
        rw [hk] at h2
        exact absurd (lt_trans h2 hgt) (lt_irrefl p)
  have hcond : goSearch lm.prices.length (fun i => decide (p ≤ lm.prices.getD i 0))
      < lm.prices.length ∧
      lm.prices.getD (goSearch lm.prices.length
        (fun i => decide (p ≤ lm.prices.getD i 0))) 0 = p := by
    refine ⟨hrltn, ?_⟩
    rw [List.getD_eq_getElem lm.prices 0 hrltn]
    simp only [hreq]
    exact hk
  have hprices : (lm.removePrice p).prices = lm.prices.take k ++ lm.prices.drop (k + 1) := by
    unfold LevelMap.removePrice
    simp only [hask, Bool.false_eq_true, if_false]
    rw [if_pos hcond]
    simp only [hreq]
  rw [hprices]
  constructor
  · exact List.Pairwise.sublist (erase_take_drop_sublist lm.prices k) hs
  · intro x
    constructor
    · intro hx
      refine ⟨(erase_take_drop_sublist lm.prices k).mem hx, ?_⟩
      rcases List.mem_append.1 hx with h' | h'
      · obtain ⟨i, hi, hxi⟩ := List.mem_iff_getElem.1 h'
        have hik : i < k := by
          simp only [List.length_take] at hi
          omega
        have hil : i < lm.prices.length := by omega
        rw [List.getElem_take lm.prices] at hxi
        intro hxp
        have h2 := hpair i k hil hkn hik
        rw [hk, hxi, hxp] at h2
        exact absurd h2 (lt_irrefl p)
      · obtain ⟨j, hj, hxj⟩ := List.mem_iff_getElem.1 h'
        have hjl : k + 1 + j < lm.prices.length := by
          simp only [List.length_drop] at hj
          omega
        rw [List.getElem_drop lm.prices] at hxj
        intro hxp
        have h2 := hpair k (k + 1 + j) hkn hjl (by omega)
        rw [hk, hxj, hxp] at h2
        exact absurd h2 (lt_irrefl p)
    · rintro ⟨hxl, hxp⟩
      obtain ⟨i, hi, hxi⟩ := List.mem_iff_getElem.1 hxl
      have hik : i ≠ k := by
        intro he
        subst he
        rw [hk] at hxi
        exact hxp hxi.symm
      rcases Nat.lt_or_ge i k with h' | h'
      · refine List.mem_append_left _ ?_
        rw [List.mem_iff_getElem]
        refine ⟨i, by simp only [List.length_take]; omega, ?_⟩
        rw [List.getElem_take lm.prices]
        exact hxi
      · have hik' : k + 1 ≤ i := by omega
        refine List.mem_append_right _ ?_
        rw [List.mem_iff_getElem]
        refine ⟨i - (k + 1), by simp only [List.length_drop]; omega, ?_⟩
        rw [List.getElem_drop lm.prices]
        simp only [show k + 1 + (i - (k + 1)) = i from by omega]
        exact hxi

/-! ## Table invariants (I1/I2) and their preservation by `set` -/

/-- Strict sort order of a side's price slice: descending for bids,
ascending for asks (invariant I1, which also forces distinctness). -/
def SortedSide (isBid : Bool) (l : List ℚ) : Prop :=
  if isBid then l.Pairwise (fun a b => b < a) else l.Pairwise (fun a b => a < b)

/-- Invariants I1 and I2 of one table: the price slice is strictly sorted in
the side's order, and holds exactly the keys of the quantity map. -/
def TableInv (lm : LevelMap) : Prop :=
  SortedSide lm.isBid lm.prices ∧
  ∀ p : ℚ, p ∈ lm.prices ↔ (lm.qtyAt p).isSome = true

theorem mapDelete_isSome (m : QtyMap) (p x : ℚ) :
    ((mapDelete m p) x).isSome = true ↔ (m x).isSome = true ∧ x ≠ p := by
  by_cases h : x = p <;> simp [mapDelete, h]

theorem mapSet_isSome (m : QtyMap) (p q x : ℚ) :
    ((mapSet m p q) x).isSome = true ↔ x = p ∨ (m x).isSome = true := by
  by_cases h : x = p <;> simp [mapSet, h]

theorem set_zero_present (lm : LevelMap) (p : ℚ) (h : (lm.qtyAt p).isSome = true) :
    lm.set p 0 = ({ lm with qtyAt := mapDelete lm.qtyAt p } : LevelMap).removePrice p := by
  simp [LevelMap.set, h]

theorem set_zero_absent (lm : LevelMap) (p : ℚ) (h : (lm.qtyAt p).isSome = false) :
    lm.set p 0 = lm := by
  simp [LevelMap.set, h]

theorem set_nonzero_present (lm : LevelMap) (p q : ℚ) (hq : q ≠ 0)
    (h : (lm.qtyAt p).isSome = true) :
    lm.set p q = { lm with qtyAt := mapSet lm.qtyAt p q } := by
  simp [LevelMap.set, hq, h]

theorem set_nonzero_absent (lm : LevelMap) (p q : ℚ) (hq : q ≠ 0)
    (h : (lm.qtyAt p).isSome = false) :
    lm.set p q = LevelMap.insertPrice { lm with qtyAt := mapSet lm.qtyAt p q } p := by
  simp [LevelMap.set, hq, h]

theorem set_preserves_inv (lm : LevelMap) (p q : ℚ) (h : TableInv lm) :
    TableInv (lm.set p q) ∧ (lm.set p q).isBid = lm.isBid := by
  obtain ⟨hsort, hcorr⟩ := h
  by_cases hq : q = 0
  · subst hq
    by_cases hp : (lm.qtyAt p).isSome = true
    · rw [set_zero_present lm p hp]
      have hmem : p ∈ lm.prices := (hcorr p).2 hp
      cases hbid : lm.isBid with
      | true =>
        obtain ⟨hs', hm'⟩ := removePrice_bid_spec
          ({ lm with qtyAt := mapDelete lm.qtyAt p } : LevelMap) p hbid
          (by simpa [SortedSide, hbid] using hsort) hmem
        simp only [hbid] at hs' hm'
        refine ⟨⟨?_, ?_⟩, ?_⟩
        · rw [removePrice_isBid]
          simpa [SortedSide, hbid] using hs'
        · intro x
          rw [removePrice_qtyAt]
          rw [hm' x]
          show x ∈ lm.prices ∧ x ≠ p ↔ ((mapDelete lm.qtyAt p) x).isSome = true
          rw [mapDelete_isSome, hcorr x]
        · rw [removePrice_isBid]
      | false =>
        obtain ⟨hs', hm'⟩ := removePrice_ask_spec
          ({ lm with qtyAt := mapDelete lm.qtyAt p } : LevelMap) p hbid
          (by simpa [SortedSide, hbid] using hsort) hmem
        simp only [hbid] at hs' hm'
        refine ⟨⟨?_, ?_⟩, ?_⟩
        · rw [removePrice_isBid]
          simpa [SortedSide, hbid] using hs'
        · intro x
          rw [removePrice_qtyAt]
          rw [hm' x]
          show x ∈ lm.prices ∧ x ≠ p ↔ ((mapDelete lm.qtyAt p) x).isSome = true
          rw [mapDelete_isSome, hcorr x]
        · rw [removePrice_isBid]
    · have hp' : (lm.qtyAt p).isSome = false := by simpa using hp
      rw [set_zero_absent lm p hp']
      exact ⟨⟨hsort, hcorr⟩, rfl⟩
  · by_cases hp : (lm.qtyAt p).isSome = true
    · rw [set_nonzero_present lm p q hq hp]
      refine ⟨⟨hsort, ?_⟩, rfl⟩
      intro x
      show x ∈ lm.prices ↔ ((mapSet lm.qtyAt p q) x).isSome = true
      rw [mapSet_isSome]
      constructor
      · intro hx
        exact Or.inr ((hcorr x).1 hx)
      · rintro (rfl | hx)
        · exact (hcorr x).2 hp
        · exact (hcorr x).2 hx
    · have hp' : (lm.qtyAt p).isSome = false := by simpa using hp
      have hab : p ∉ lm.prices := by
        intro hmem
        rw [(hcorr p).1 hmem] at hp'
        exact absurd hp' (by simp)
      rw [set_nonzero_absent lm p q hq hp']
      cases hbid : lm.isBid with
      | true =>
        obtain ⟨hs', hm'⟩ := insertPrice_bid_spec
          ({ lm with qtyAt := mapSet lm.qtyAt p q } : LevelMap) p hbid
          (by simpa [SortedSide, hbid] using hsort) hab
        simp only [hbid] at hs' hm'
        refine ⟨⟨?_, ?_⟩, ?_⟩
        · rw [insertPrice_isBid]
          simpa [SortedSide, hbid] using hs'
        · intro x
          rw [insertPrice_qtyAt]
          rw [hm' x]
          show x = p ∨ x ∈ lm.prices ↔ ((mapSet lm.qtyAt p q) x).isSome = true
          rw [mapSet_isSome, hcorr x]
        · rw [insertPrice_isBid]
      | false =>
        obtain ⟨hs', hm'⟩ := insertPrice_ask_spec
          ({ lm with qtyAt := mapSet lm.qtyAt p q } : LevelMap) p hbid
          (by simpa [SortedSide, hbid] using hsort) hab
        simp only [hbid] at hs' hm'
        refine ⟨⟨?_, ?_⟩, ?_⟩
        · rw [insertPrice_isBid]
          simpa [SortedSide, hbid] using hs'
        · intro x
          rw [insertPrice_qtyAt]
          rw [hm' x]
          show x = p ∨ x ∈ lm.prices ↔ ((mapSet lm.qtyAt p q) x).isSome = true
          rw [mapSet_isSome, hcorr x]
        · rw [insertPrice_isBid]

/-! ## Side-loop characterisations -/

theorem applyLevels_table_inv (l : List (FStr × FStr)) :
    ∀ lm : LevelMap, TableInv lm →
      TableInv (applyLevels l lm).table ∧ (applyLevels l lm).table.isBid = lm.isBid := by
  induction l with
  | nil =>
    intro lm h
    exact ⟨h, rfl⟩
  | cons e rest ih =>
    intro lm h
    cases he1 : ParseFloat e.1 with
    | ok v1 =>
      cases he2 : ParseFloat e.2 with
      | ok v2 =>
        have hstep := set_preserves_inv lm v1 v2 h
        have hrec := ih (lm.set v1 v2) hstep.1
        simp only [applyLevels, he1, he2]
        exact ⟨hrec.1, hrec.2.trans hstep.2⟩
      | error t =>
        simp only [applyLevels, he1, he2]
        exact ⟨h, rfl⟩
    | error t =>
      cases he2 : ParseFloat e.2 <;>
        · simp only [applyLevels, he1, he2]
          exact ⟨h, rfl⟩

/-- Prices of the positive-quantity pairs in a parsed entry list. -/
def posKeys (l : List (ℚ × ℚ)) : List ℚ :=
  l.filterMap (fun e => if 0 < e.2 then some e.1 else none)

theorem posKeys_parsedEntries (l : List (FStr × FStr)) :
    posKeys (parsedEntries l) = posPrices l := by
  induction l with
  | nil => rfl
  | cons e rest ih =>
    simp only [posKeys, parsedEntries, posPrices] at ih ⊢
    cases h1 : ParseFloat e.1 <;> cases h2 : ParseFloat e.2 <;>
      simp [h1, h2, List.filterMap_cons, ih]

theorem loadFold_cons (a : ℚ × ℚ) (t : List (ℚ × ℚ)) (m : QtyMap) :
    loadFold (a :: t) m = loadFold t (if 0 < a.2 then mapSet m a.1 a.2 else m) := rfl

theorem loadSide_done_eq (l : List (FStr × FStr)) (hall : AllParse l) :
    ∀ (m : QtyMap) (acc : List ℚ),
      loadSide l m acc = .done (loadFold (parsedEntries l) m) (acc ++ posPrices l) := by
  induction l with
  | nil =>
    intro m acc
    simp [loadSide, loadFold, parsedEntries, posPrices]
  | cons e rest ih =>
    intro m acc
    obtain ⟨h1, h2⟩ := hall e (List.mem_cons_self e rest)
    obtain ⟨v1, hv1⟩ := (parsesB_iff_ok e.1).1 h1
    obtain ⟨v2, hv2⟩ := (parsesB_iff_ok e.2).1 h2
    have hrest : AllParse rest := fun x hx => hall x (List.mem_cons_of_mem e hx)
    by_cases hq : 0 < v2
    · simp only [loadSide, hv1, hv2, if_pos hq, ih hrest,
        parsedEntries, posPrices, List.filterMap_cons]
      rw [loadFold_cons]
      simp [hq]
    · simp only [loadSide, hv1, hv2, if_neg hq, ih hrest,
        parsedEntries, posPrices, List.filterMap_cons]
      rw [loadFold_cons]
      simp [hq]

theorem loadSide_aborted_eq (pre : List (FStr × FStr)) (hall : AllParse pre)
    (e0 : FStr × FStr) (hbad : ¬(parsesB e0.1 = true ∧ parsesB e0.2 = true))
    (post : List (FStr × FStr)) :
    ∀ (m : QtyMap) (acc : List ℚ),
      loadSide (pre ++ e0 :: post) m acc
        = .aborted (errOf (ParseFloat e0.1)) (loadFold (parsedEntries pre) m) := by
  induction pre with
  | nil =>
    intro m acc
    cases h1 : ParseFloat e0.1 with
    | ok v1 =>
      cases h2 : ParseFloat e0.2 with
      | ok v2 =>
        exact absurd ⟨by simp [parsesB, h1], by simp [parsesB, h2]⟩ hbad
      | error t =>
        simp [loadSide, h1, h2, errOf, loadFold, parsedEntries]
    | error t =>
      cases h2 : ParseFloat e0.2 <;>
        simp [loadSide, h1, h2, errOf, loadFold, parsedEntries]
  | cons e rest ih =>
    intro m acc
    obtain ⟨h1, h2⟩ := hall e (List.mem_cons_self e rest)
    obtain ⟨v1, hv1⟩ := (parsesB_iff_ok e.1).1 h1
    obtain ⟨v2, hv2⟩ := (parsesB_iff_ok e.2).1 h2
    have hrest : AllParse rest := fun x hx => hall x (List.mem_cons_of_mem e hx)
    by_cases hq : 0 < v2
    · rw [show loadSide ((e :: rest) ++ e0 :: post) m acc
          = loadSide (rest ++ e0 :: post) (mapSet m v1 v2) (acc ++ [v1]) from by
        simp [loadSide, hv1, hv2, hq]]
      rw [ih hrest]
      simp only [parsedEntries, List.filterMap_cons, hv1, hv2, loadFold_cons]
      simp [hq]
    · rw [show loadSide ((e :: rest) ++ e0 :: post) m acc
          = loadSide (rest ++ e0 :: post) m acc from by
        simp [loadSide, hv1, hv2, hq]]
      rw [ih hrest]
      simp only [parsedEntries, List.filterMap_cons, hv1, hv2, loadFold_cons]
      simp [hq]

theorem loadFold_isSome (l : List (ℚ × ℚ)) :
    ∀ (m : QtyMap) (x : ℚ),
      ((loadFold l m) x).isSome = true ↔ (m x).isSome = true ∨ x ∈ posKeys l := by
  induction l with
  | nil =>
    intro m x
    simp [loadFold, posKeys]
  | cons a t ih =>
    intro m x
    rw [loadFold_cons, ih]
    by_cases hq : 0 < a.2
    · by_cases hx : x = a.1 <;>
        simp [posKeys, List.filterMap_cons, hq, hx, mapSet_isSome, or_assoc]
    · simp [posKeys, List.filterMap_cons, hq]

theorem loadFold_pos (l : List (ℚ × ℚ)) :
    ∀ (m : QtyMap), (∀ x v, m x = some v → 0 < v) →
      ∀ x v, (loadFold l m) x = some v → 0 < v := by
  induction l with
  | nil =>
    intro m hm x v hxv
    exact hm x v hxv
  | cons a t ih =>
    intro m hm x v hxv
    rw [loadFold_cons] at hxv
    refine ih _ ?_ x v hxv
    by_cases hq : 0 < a.2
    · rw [if_pos hq]
      intro y w hyw
      unfold mapSet at hyw
      by_cases hy : y = a.1
      · rw [if_pos hy] at hyw
        cases hyw
        exact hq
      · rw [if_neg hy] at hyw
        exact hm y w hyw
    · rw [if_neg hq]
      exact hm

/-! ## Book-level invariants and reachability -/

theorem mergeSort_desc_strict (l : List ℚ) (h : l.Nodup) :
    (l.mergeSort (fun a b => decide (b ≤ a))).Pairwise (fun a b => b < a) := by
  have hs := @List.sorted_mergeSort ℚ (fun a b : ℚ => decide (b ≤ a))
    (fun a b c hab hbc => by
      simp only [decide_eq_true_iff] at *
      exact le_trans hbc hab)
    (fun a b => by
      simp only [Bool.or_eq_true, decide_eq_true_iff]
      exact le_total b a) l
  have hn : (l.mergeSort (fun a b => decide (b ≤ a))).Nodup :=
    (List.mergeSort_perm l _).nodup_iff.2 h
  have hcomb := List.Pairwise.and hs hn
  refine hcomb.imp ?_
  rintro a b ⟨hab, hne⟩
  simp only [decide_eq_true_iff] at hab
  exact lt_of_le_of_ne hab (fun he => hne he.symm)

theorem mergeSort_asc_strict (l : List ℚ) (h : l.Nodup) :
    (l.mergeSort (fun a b => decide (a ≤ b))).Pairwise (fun a b => a < b) := by
  have hs := @List.sorted_mergeSort ℚ (fun a b : ℚ => decide (a ≤ b))
    (fun a b c hab hbc => by
      simp only [decide_eq_true_iff] at *
      exact le_trans hab hbc)
    (fun a b => by
      simp only [Bool.or_eq_true, decide_eq_true_iff]
      exact le_total a b) l
  have hn : (l.mergeSort (fun a b => decide (a ≤ b))).Nodup :=
    (List.mergeSort_perm l _).nodup_iff.2 h
  have hcomb := List.Pairwise.and hs hn
  refine hcomb.imp ?_
  rintro a b ⟨hab, hne⟩
  simp only [decide_eq_true_iff] at hab
  exact lt_of_le_of_ne hab hne

/-- The book-level shape invariant: correct side tags and I1/I2 per table. -/
def BookInv (ob : OrderBook) : Prop :=
  ob.bids.isBid = true ∧ ob.asks.isBid = false ∧ TableInv ob.bids ∧ TableInv ob.asks

/-- A snapshot message that parses entirely and whose kept (positive)
entries carry pairwise-distinct prices on each side — the shape every real
exchange snapshot has. -/
def GoodSnap (s : SnapshotMsg) : Prop :=
  AllParse s.bids ∧ AllParse s.asks ∧
  (posPrices s.bids).Nodup ∧ (posPrices s.asks).Nodup

instance instDecidableGoodSnap (s : SnapshotMsg) : Decidable (GoodSnap s) :=
  inferInstanceAs (Decidable (AllParse s.bids ∧ AllParse s.asks ∧
    (posPrices s.bids).Nodup ∧ (posPrices s.asks).Nodup))

theorem applySnapshot_goodSnap_spec (ob : OrderBook) (s : SnapshotMsg) (hg : GoodSnap s) :
    BookInv (ob.ApplySnapshot s).2 ∧ (ob.ApplySnapshot s).1 = none ∧
    (ob.ApplySnapshot s).2.lastID = s.lastUpdateID ∧
    (ob.ApplySnapshot s).2.bids.prices
      = (posPrices s.bids).mergeSort (fun a b => decide (b ≤ a)) ∧
    (ob.ApplySnapshot s).2.asks.prices
      = (posPrices s.asks).mergeSort (fun a b => decide (a ≤ b)) := by
  obtain ⟨hab, haa, hnb, hna⟩ := hg
  have hb := loadSide_done_eq s.bids hab (fun _ => none) []
  have ha := loadSide_done_eq s.asks haa (fun _ => none) []
  unfold OrderBook.ApplySnapshot
  rw [hb, ha]
  refine ⟨⟨rfl, rfl, ⟨?_, ?_⟩, ⟨?_, ?_⟩⟩, rfl, rfl,
    by simp only [List.nil_append], by simp only [List.nil_append]⟩
  · show SortedSide true (([] ++ posPrices s.bids).mergeSort (fun a b => decide (b ≤ a)))
    rw [List.nil_append]
    simp only [SortedSide, if_true]
    exact mergeSort_desc_strict _ hnb
  · intro x
    show x ∈ ([] ++ posPrices s.bids).mergeSort (fun a b => decide (b ≤ a))
      ↔ ((loadFold (parsedEntries s.bids) (fun _ => none)) x).isSome = true
    rw [List.nil_append, (List.mergeSort_perm (posPrices s.bids) _).mem_iff,
      loadFold_isSome, posKeys_parsedEntries]
    simp
  · show SortedSide false (([] ++ posPrices s.asks).mergeSort (fun a b => decide (a ≤ b)))
    rw [List.nil_append]
    simp only [SortedSide, if_false]
    exact mergeSort_asc_strict _ hna
  · intro x
    show x ∈ ([] ++ posPrices s.asks).mergeSort (fun a b => decide (a ≤ b))
      ↔ ((loadFold (parsedEntries s.asks) (fun _ => none)) x).isSome = true
    rw [List.nil_append, (List.mergeSort_perm (posPrices s.asks) _).mem_iff,
      loadFold_isSome, posKeys_parsedEntries]
    simp

theorem applyUpdate_accept_eq (ob : OrderBook) (upd : UpdateMsg)
    (h1 : ¬ upd.finalID < ob.lastID + 1)
    (h2 : ¬ (ob.lastID + 1 < upd.firstID ∨ upd.finalID < ob.lastID + 1)) :
    ob.ApplyUpdate upd =
      match (applyLevels upd.bids ob.bids).goErr with
      | some t =>
        (some (GoErr.parse t),
          { ob with bids := (applyLevels upd.bids ob.bids).table })
      | none =>
        match (applyLevels upd.asks ob.asks).goErr with
        | some t =>
          (some (GoErr.parse t),
            { ob with
                bids := (applyLevels upd.bids ob.bids).table,
                asks := (applyLevels upd.asks ob.asks).table })
        | none =>
          (none,
            { lastID := upd.finalID,
              bids := (applyLevels upd.bids ob.bids).table,
              asks := (applyLevels upd.asks ob.asks).table }) := by
  unfold OrderBook.ApplyUpdate
  rw [if_neg h1, if_neg h2]

theorem applyUpdate_preserves_inv (ob : OrderBook) (u : UpdateMsg) (h : BookInv ob) :
    BookInv (ob.ApplyUpdate u).2 := by
  obtain ⟨hbB, hbA, hiB, hiA⟩ := h
  by_cases h1 : u.finalID < ob.lastID + 1
  · have heq : ob.ApplyUpdate u = (none, ob) := by
      unfold OrderBook.ApplyUpdate
      rw [if_pos h1]
    rw [heq]
    exact ⟨hbB, hbA, hiB, hiA⟩
  · by_cases h2 : ob.lastID + 1 < u.firstID ∨ u.finalID < ob.lastID + 1
    · have heq : ob.ApplyUpdate u = (some .gap, ob) := by
        unfold OrderBook.ApplyUpdate
        rw [if_neg h1, if_pos h2]
      rw [heq]
      exact ⟨hbB, hbA, hiB, hiA⟩
    · have hBids := applyLevels_table_inv u.bids ob.bids hiB
      have hAsks := applyLevels_table_inv u.asks ob.asks hiA
      rw [applyUpdate_accept_eq ob u h1 h2]
      cases hB : (applyLevels u.bids ob.bids).goErr with
      | some t => exact ⟨hBids.2.trans hbB, hbA, hBids.1, hiA⟩
      | none =>
        cases hA : (applyLevels u.asks ob.asks).goErr with
        | some t => exact ⟨hBids.2.trans hbB, hAsks.2.trans hbA, hBids.1, hAsks.1⟩
        | none => exact ⟨hBids.2.trans hbB, hAsks.2.trans hbA, hBids.1, hAsks.1⟩

/-- Book states reachable through `New`, well-formed snapshot loads and
arbitrary diff applications. -/
inductive Reachable : OrderBook → Prop
  | base : Reachable OrderBook.New
  | snap {ob : OrderBook} {s : SnapshotMsg} :
      Reachable ob → GoodSnap s → Reachable (ob.ApplySnapshot s).2
  | diff {ob : OrderBook} {u : UpdateMsg} :
      Reachable ob → Reachable (ob.ApplyUpdate u).2

/-- C6 (amended): in every book state reachable through `New`, `ApplySnapshot`
restricted to snapshots that parse entirely and whose kept positive-quantity
entries have pairwise-distinct prices per side, and arbitrary `ApplyUpdate`
calls, each side's price slice is strictly sorted in the side's order
(descending for bids, ascending for asks), duplicate-free, and holds exactly
the keys of that side's quantity map. -/
theorem reachable_book_invariant (ob : OrderBook) (h : Reachable ob) :
    BookInv ob ∧ ob.bids.prices.Nodup ∧ ob.asks.prices.Nodup := by
  have main : BookInv ob := by
    induction h with
    | base =>
      refine ⟨rfl, rfl, ⟨?_, ?_⟩, ⟨?_, ?_⟩⟩
      · show SortedSide true ([] : List ℚ)
        simp [SortedSide]
      · intro x
        show x ∈ ([] : List ℚ) ↔ (none : Option ℚ).isSome = true
        simp
      · show SortedSide false ([] : List ℚ)
        simp [SortedSide]
      · intro x
        show x ∈ ([] : List ℚ) ↔ (none : Option ℚ).isSome = true
        simp
    | snap _ hg _ => exact (applySnapshot_goodSnap_spec _ _ hg).1
    | diff _ ih => exact applyUpdate_preserves_inv _ _ ih
  obtain ⟨hbB, hbA, hiB, hiA⟩ := main
  refine ⟨⟨hbB, hbA, hiB, hiA⟩, ?_, ?_⟩
  · have hs := hiB.1
    rw [hbB] at hs
    simp only [SortedSide, if_true] at hs
    exact List.Pairwise.imp (fun hab => ne_of_gt hab) hs
  · have hs := hiA.1
    rw [hbA] at hs
    simp only [SortedSide, if_false] at hs
    exact List.Pairwise.imp (fun hab => ne_of_lt hab) hs

theorem reachable_book_invariant_witness :
    BookInv ((OrderBook.New.ApplySnapshot
        { lastUpdateID := 7, bids := [(.num 100, .num 1), (.num 99, .num 2)],
          asks := [(.num 101, .num 1)] }).2.ApplyUpdate
        { firstID := 8, finalID := 8, bids := [(.num 98, .num 1)], asks := [] }).2 ∧
    ((OrderBook.New.ApplySnapshot
        { lastUpdateID := 7, bids := [(.num 100, .num 1), (.num 99, .num 2)],
          asks := [(.num 101, .num 1)] }).2.ApplyUpdate
        { firstID := 8, finalID := 8, bids := [(.num 98, .num 1)], asks := [] }).2.bids.prices.Nodup ∧
    ((OrderBook.New.ApplySnapshot
        { lastUpdateID := 7, bids := [(.num 100, .num 1), (.num 99, .num 2)],
          asks := [(.num 101, .num 1)] }).2.ApplyUpdate
        { firstID := 8, finalID := 8, bids := [(.num 98, .num 1)], asks := [] }).2.asks.prices.Nodup :=
  reachable_book_invariant _
    (Reachable.diff (Reachable.snap Reachable.base (by decide)))

/-! ## Best-of-book helpers -/

theorem best_price_mem (lm : LevelMap) (p q : ℚ) (h : lm.best = some (p, q)) :
    p ∈ lm.prices := by
  unfold LevelMap.best at h
  cases hl : lm.prices with
  | nil =>
    rw [hl] at h
    exact absurd h (by simp)
  | cons a t =>
    rw [hl] at h
    have ha : a = p := by
      have := h
      simp only [Option.some.injEq, Prod.mk.injEq] at this
      exact this.1
    rw [← ha]
    exact List.mem_cons_self _ _

theorem best_of_head (lm : LevelMap) (p q : ℚ) (hh : lm.prices.head? = some p)
    (hq : lm.qtyAt p = some q) : lm.best = some (p, q) := by
  unfold LevelMap.best
  cases hl : lm.prices with
  | nil =>
    rw [hl] at hh
    exact absurd hh (by simp)
  | cons a t =>
    rw [hl] at hh
    have ha : a = p := by simpa using hh
    subst ha
    show some (a, (lm.qtyAt a).getD 0) = some (a, q)
    rw [hq]
    rfl

theorem applySnapshot_allParse_prices (ob : OrderBook) (s : SnapshotMsg)
    (hab : AllParse s.bids) (haa : AllParse s.asks) :
    (ob.ApplySnapshot s).2.bids.prices
      = (posPrices s.bids).mergeSort (fun a b => decide (b ≤ a)) ∧
    (ob.ApplySnapshot s).2.asks.prices
      = (posPrices s.asks).mergeSort (fun a b => decide (a ≤ b)) := by
  have hb := loadSide_done_eq s.bids hab (fun _ => none) []
  have ha := loadSide_done_eq s.asks haa (fun _ => none) []
  unfold OrderBook.ApplySnapshot
  rw [hb, ha]
  constructor <;> simp only [List.nil_append]

/-- C7 (amended): the code never checks for a crossed book, so invariant I4
holds only conditionally on the input; in particular, after a snapshot that
parses entirely and whose kept bid prices all lie strictly below its kept ask
prices, the best bid is strictly below the best ask whenever both sides are
non-empty. -/
theorem applySnapshot_uncrossed (ob : OrderBook) (s : SnapshotMsg)
    (hb : AllParse s.bids) (ha : AllParse s.asks)
    (hcross : ∀ p ∈ posPrices s.bids, ∀ q ∈ posPrices s.asks, p < q) :
    notCrossedB (ob.ApplySnapshot s).2 = true := by
  obtain ⟨hpb, hpa⟩ := applySnapshot_allParse_prices ob s hb ha
  unfold notCrossedB
  cases hbb : (ob.ApplySnapshot s).2.BestBid with
  | none => cases hba : (ob.ApplySnapshot s).2.BestAsk <;> rfl
  | some b =>
    cases hba : (ob.ApplySnapshot s).2.BestAsk with
    | none => rfl
    | some a =>
      have hmb : b.1 ∈ (ob.ApplySnapshot s).2.bids.prices :=
        best_price_mem _ b.1 b.2 hbb
      have hma : a.1 ∈ (ob.ApplySnapshot s).2.asks.prices :=
        best_price_mem _ a.1 a.2 hba
      rw [hpb] at hmb
      rw [hpa] at hma
      have hmb' : b.1 ∈ posPrices s.bids :=
        (List.mergeSort_perm (posPrices s.bids) _).mem_iff.1 hmb
      have hma' : a.1 ∈ posPrices s.asks :=
        (List.mergeSort_perm (posPrices s.asks) _).mem_iff.1 hma
      exact decide_eq_true (hcross _ hmb' _ hma')

theorem applySnapshot_uncrossed_witness :
    notCrossedB (OrderBook.New.ApplySnapshot
      { lastUpdateID := 3, bids := [(.num 10, .num 1)],
        asks := [(.num 11, .num 2)] }).2 = true :=
  applySnapshot_uncrossed OrderBook.New
    { lastUpdateID := 3, bids := [(.num 10, .num 1)], asks := [(.num 11, .num 2)] }
    (by decide) (by decide) (by decide)

/-- C8: when `ApplySnapshot` returns a (non-nil) parse error — which happens
exactly when the first failing entry has a malformed price — the book is not
restored: both tables have been replaced; the failing side's map holds
exactly the well-formed positive-quantity entries processed before the
failing one while its price slice is empty (the sorted slice is only
assigned after a side's loop completes), any side after the failing one is
empty, a bid side that completed before an ask-side failure is fully loaded,
and `lastID` keeps its prior value. -/
theorem applySnapshot_parse_error_partial_state :
    (∀ (ob : OrderBook) (seq : ℤ) (pre post asks : List (FStr × FStr)) (t : ℕ) (q : FStr),
      AllParse pre →
      OrderBook.ApplySnapshot ob
          { lastUpdateID := seq, bids := pre ++ (FStr.bad t, q) :: post, asks := asks }
        = (some t,
            { lastID := ob.lastID,
              bids := { isBid := true, prices := [],
                        qtyAt := snapMap (parsedEntries pre) },
              asks := newLevelMap false })) ∧
    (∀ (ob : OrderBook) (seq : ℤ) (bids pre post : List (FStr × FStr)) (t : ℕ) (q : FStr),
      AllParse bids → AllParse pre →
      OrderBook.ApplySnapshot ob
          { lastUpdateID := seq, bids := bids, asks := pre ++ (FStr.bad t, q) :: post }
        = (some t,
            { lastID := ob.lastID,
              bids := { isBid := true,
                        prices := (posPrices bids).mergeSort (fun a b => decide (b ≤ a)),
                        qtyAt := snapMap (parsedEntries bids) },
              asks := { isBid := false, prices := [],
                        qtyAt := snapMap (parsedEntries pre) } })) := by
  constructor
  · intro ob seq pre post asks t q hpre
    have habort := loadSide_aborted_eq pre hpre (FStr.bad t, q)
      (by simp [parsesB, ParseFloat]) post (fun _ => none) []
    unfold OrderBook.ApplySnapshot
    rw [habort]
    rfl
  · intro ob seq bids pre post t q hbids hpre
    have hdone := loadSide_done_eq bids hbids (fun _ => none) []
    have habort := loadSide_aborted_eq pre hpre (FStr.bad t, q)
      (by simp [parsesB, ParseFloat]) post (fun _ => none) []
    unfold OrderBook.ApplySnapshot
    rw [hdone, habort]
    simp only [List.nil_append]
    rfl

theorem applySnapshot_parse_error_partial_state_witness :
    OrderBook.New.ApplySnapshot
        { lastUpdateID := 9,
          bids := [(FStr.num 5, FStr.num 2)] ++ (FStr.bad 4, FStr.num 1) :: [],
          asks := [(.num 7, .num 1)] }
      = (some 4,
          { lastID := 0,
            bids := { isBid := true, prices := [],
                      qtyAt := snapMap (parsedEntries [(FStr.num 5, FStr.num 2)]) },
            asks := newLevelMap false }) := by
  have h := (applySnapshot_parse_error_partial_state.1 OrderBook.New 9
    [(FStr.num 5, FStr.num 2)] [] [(.num 7, .num 1)] 4 (FStr.num 1) (by decide))
  exact h

theorem insertPrice_mem_self (lm : LevelMap) (p : ℚ) : p ∈ (lm.insertPrice p).prices := by
  unfold LevelMap.insertPrice
  exact List.mem_append_right _ (List.mem_cons_self _ _)

theorem loadSide_qmap_pos (l : List (FStr × FStr)) :
    ∀ (m : QtyMap) (acc : List ℚ), (∀ x v, m x = some v → 0 < v) →
      (∀ m' acc', loadSide l m acc = .done m' acc' → ∀ x v, m' x = some v → 0 < v) ∧
      (∀ e m', loadSide l m acc = .aborted e m' → ∀ x v, m' x = some v → 0 < v) := by
  induction l with
  | nil =>
    intro m acc hm
    constructor
    · intro m' acc' hdone
      cases hdone
      exact hm
    · intro e m' habort
      cases habort
  | cons a rest ih =>
    intro m acc hm
    cases h1 : ParseFloat a.1 with
    | ok v1 =>
      cases h2 : ParseFloat a.2 with
      | ok v2 =>
        by_cases hq : 0 < v2
        · have hm' : ∀ x v, (mapSet m v1 v2) x = some v → 0 < v := by
            intro x v hx
            unfold mapSet at hx
            by_cases hxv : x = v1
            · rw [if_pos hxv] at hx
              cases hx
              exact hq
            · rw [if_neg hxv] at hx
              exact hm x v hx
          have := ih (mapSet m v1 v2) (acc ++ [v1]) hm'
          constructor
          · intro m' acc' hdone
            rw [show loadSide (a :: rest) m acc
                = loadSide rest (mapSet m v1 v2) (acc ++ [v1]) from by
              simp [loadSide, h1, h2, hq]] at hdone
            exact this.1 m' acc' hdone
          · intro e m' habort
            rw [show loadSide (a :: rest) m acc
                = loadSide rest (mapSet m v1 v2) (acc ++ [v1]) from by
              simp [loadSide, h1, h2, hq]] at habort
            exact this.2 e m' habort
        · have := ih m acc hm
          constructor
          · intro m' acc' hdone
            rw [show loadSide (a :: rest) m acc = loadSide rest m acc from by
              simp [loadSide, h1, h2, hq]] at hdone
            exact this.1 m' acc' hdone
          · intro e m' habort
            rw [show loadSide (a :: rest) m acc = loadSide rest m acc from by
              simp [loadSide, h1, h2, hq]] at habort
            exact this.2 e m' habort
      | error t =>
        constructor
        · intro m' acc' hdone
          rw [show loadSide (a :: rest) m acc
              = .aborted (errOf (ParseFloat a.1)) m from by
            simp [loadSide, h1, h2]] at hdone
          cases hdone
        · intro e m' habort
          rw [show loadSide (a :: rest) m acc
              = .aborted (errOf (ParseFloat a.1)) m from by
            simp [loadSide, h1, h2]] at habort
          cases habort
          exact hm
    | error t =>
      constructor
      · intro m' acc' hdone
        rw [show loadSide (a :: rest) m acc
            = .aborted (errOf (ParseFloat a.1)) m from by
          simp [loadSide, h1]] at hdone
        cases hdone
      · intro e m' habort
        rw [show loadSide (a :: rest) m acc
            = .aborted (errOf (ParseFloat a.1)) m from by
          simp [loadSide, h1]] at habort
        cases habort
        exact hm

/-- C9: `set` with a strictly negative quantity stores the level instead of
deleting or dropping it — the price is mapped to the negative quantity, is
present in the side's price slice, shows up in the full-depth level listing,
and is the value `best` reports when it sits at the top — whereas
`ApplySnapshot` never stores a non-positive quantity: every quantity held by
a snapshot-built table (even one left behind by an aborted load) is strictly
positive. -/
theorem set_negative_qty_stored :
    (∀ (lm : LevelMap) (p q : ℚ), q < 0 →
      ((lm.qtyAt p).isSome = true → p ∈ lm.prices) →
      (lm.set p q).qtyAt p = some q ∧ p ∈ (lm.set p q).prices ∧
      ({ price := p, quantity := q } : Level) ∈ (lm.set p q).prices.map
        (fun r => ({ price := r, quantity := ((lm.set p q).qtyAt r).getD 0 } : Level)) ∧
      ((lm.set p q).prices.head? = some p → (lm.set p q).best = some (p, q))) ∧
    (∀ (ob : OrderBook) (s : SnapshotMsg) (x v : ℚ),
      ((ob.ApplySnapshot s).2.bids.qtyAt x = some v → 0 < v) ∧
      ((ob.ApplySnapshot s).2.asks.qtyAt x = some v → 0 < v)) := by
  constructor
  · intro lm p q hq hpm
    have hq0 : q ≠ 0 := ne_of_lt hq
    have hmain : (lm.set p q).qtyAt p = some q ∧ p ∈ (lm.set p q).prices := by
      by_cases hp : (lm.qtyAt p).isSome = true
      · rw [set_nonzero_present lm p q hq0 hp]
        refine ⟨by simp [mapSet], hpm hp⟩
      · have hp' : (lm.qtyAt p).isSome = false := by simpa using hp
        rw [set_nonzero_absent lm p q hq0 hp']
        refine ⟨?_, insertPrice_mem_self _ p⟩
        rw [insertPrice_qtyAt]
        simp [mapSet]
    refine ⟨hmain.1, hmain.2, ?_, ?_⟩
    · refine List.mem_map.2 ⟨p, hmain.2, ?_⟩
      rw [hmain.1]
      rfl
    · intro hh
      exact best_of_head _ p q hh hmain.1
  · intro ob s x v
    have hbase : ∀ (y : ℚ) (w : ℚ), (fun _ : ℚ => (none : Option ℚ)) y = some w → 0 < w := by
      intro y w hy
      exact absurd hy (by simp)
    unfold OrderBook.ApplySnapshot
    cases hb : loadSide s.bids (fun _ => none) [] with
    | aborted e m =>
      have hm := (loadSide_qmap_pos s.bids (fun _ => none) [] hbase).2 e m hb
      constructor
      · intro hxv
        exact hm x v hxv
      · intro hxv
        exact absurd hxv (by simp [newLevelMap])
    | done mB accB =>
      have hmB := (loadSide_qmap_pos s.bids (fun _ => none) [] hbase).1 mB accB hb
      cases ha : loadSide s.asks (fun _ => none) [] with
      | aborted e m =>
        have hm := (loadSide_qmap_pos s.asks (fun _ => none) [] hbase).2 e m ha
        exact ⟨fun hxv => hmB x v hxv, fun hxv => hm x v hxv⟩
      | done mA accA =>
        have hmA := (loadSide_qmap_pos s.asks (fun _ => none) [] hbase).1 mA accA ha
        exact ⟨fun hxv => hmB x v hxv, fun hxv => hmA x v hxv⟩

theorem set_negative_qty_stored_witness :
    ((newLevelMap true).set 2 (-1)).qtyAt 2 = some (-1) ∧
    (2 : ℚ) ∈ ((newLevelMap true).set 2 (-1)).prices :=
  ⟨(set_negative_qty_stored.1 (newLevelMap true) 2 (-1) (by decide)
      (fun h => absurd h (by decide))).1,
    (set_negative_qty_stored.1 (newLevelMap true) 2 (-1) (by decide)
      (fun h => absurd h (by decide))).2.1⟩
